import Mathlib

/-!
Shallow embedding of the MultiRaft repository's Raft consensus module and its
key-value service layer, together with theorems checking the natural-language
specification against the code.

Conventions of the embedding:
* Go `int` values (log indices, terms, client/command ids) are modelled as `Int`.
* The Go slice `logs []Entry` is a `List Entry`; Go operations that can panic
  (index out of range, `convertIndex` called below the dummy index, negative
  slice bounds) are modelled as `Option`-returning functions where `none`
  models the abort.  Functions on the happy path return `some`.
* Commands carried by log entries are opaque payloads, modelled as `Int`.
* Lock acquisition/release, timers and goroutine scheduling are not modelled;
  each Go function that runs under the node lock becomes a pure function on
  the node state.  Condition-variable signals are returned as `Bool` flags.
-/

/-- Log entry (Entry in the source): absolute index, term, opaque command. -/
structure Entry where
  index : Int
  term : Int
  command : Int
deriving DecidableEq

instance : Inhabited Entry := ⟨⟨0, 0, 0⟩⟩

/-- The raft log (type raftLog in the source): a list of entries whose first
element is the dummy entry carrying the last-snapshotted index and term. -/
structure raftLog where
  logs : List Entry
deriving DecidableEq

/-- newLogs: a log holding a single zero dummy entry (make([]Entry, 1)). -/
def newLogs : raftLog := ⟨[default]⟩

/-- dummyIndex: l.logs[0].Index. -/
def raftLog.dummyIndex (l : raftLog) : Int := (l.logs.getD 0 default).index

/-- len: len(l.logs). -/
def raftLog.len (l : raftLog) : Nat := l.logs.length

/-- lastIndex: l.logs[len(l.logs)-1].Index. -/
def raftLog.lastIndex (l : raftLog) : Int :=
  (l.logs.getD (l.logs.length - 1) default).index

/-- lastTerm: l.logs[len(l.logs)-1].Term. -/
def raftLog.lastTerm (l : raftLog) : Int :=
  (l.logs.getD (l.logs.length - 1) default).term

/-- convertIndex: panics (none) when index < dummyIndex, otherwise the offset
index - dummyIndex into the logs slice. -/
def raftLog.convertIndex (l : raftLog) (index : Int) : Option Nat :=
  if index < l.dummyIndex then none else some (index - l.dummyIndex).toNat

/-- getEntry: l.logs[l.convertIndex(index)]; none models the two Go panics
(convertIndex abort, index out of range). -/
def raftLog.getEntry (l : raftLog) (index : Int) : Option Entry := do
  let i ← l.convertIndex index
  l.logs.get? i

/-- append: appending no entries leaves the log unchanged (the source returns
early), otherwise the entries are appended to the slice. -/
def raftLog.append (l : raftLog) (ents : List Entry) : raftLog :=
  ⟨l.logs ++ ents⟩

/-- sliceTo: l.logs[:l.convertIndex(high)]; none models an aborted slice when
the bound is below the dummy index or beyond the slice length. -/
def raftLog.sliceTo (l : raftLog) (high : Int) : Option (List Entry) := do
  let i ← l.convertIndex high
  if i ≤ l.logs.length then some (l.logs.take i) else none

/-- trunc: replaces the logs with l.sliceTo(high). -/
def raftLog.trunc (l : raftLog) (high : Int) : Option raftLog :=
  (l.sliceTo high).map raftLog.mk

/-- sliceFrom: l.logs[l.convertIndex(low):]. -/
def raftLog.sliceFrom (l : raftLog) (low : Int) : Option (List Entry) := do
  let i ← l.convertIndex low
  if i ≤ l.logs.length then some (l.logs.drop i) else none

/-- slice: l.logs[l.convertIndex(low):l.convertIndex(high)]. -/
def raftLog.slice (l : raftLog) (low high : Int) : Option (List Entry) := do
  let a ← l.convertIndex low
  let b ← l.convertIndex high
  if a ≤ b ∧ b ≤ l.logs.length then some ((l.logs.take b).drop a) else none

/-- matchLog: false when the index is past the last index, otherwise true iff
the stored entry at that index has the requested index and term. -/
def raftLog.matchLog (l : raftLog) (requestPrevTerm requestPrevIndex : Int) :
    Option Bool :=
  if requestPrevIndex > l.lastIndex then some false
  else do
    let targetLog ← l.getEntry requestPrevIndex
    some (requestPrevIndex == targetLog.index && requestPrevTerm == targetLog.term)

/-- isLogUpToDate: Raft §5.4.1 candidate-log comparison. -/
def raftLog.isLogUpToDate (l : raftLog) (requestLastTerm requestLastIndex : Int) :
    Bool :=
  requestLastTerm > l.lastTerm ||
    (l.lastTerm == requestLastTerm && requestLastIndex ≥ l.lastIndex)

/-- Well-formedness of a log as produced by the program: nonempty (newLogs
seeds the dummy entry) with contiguous absolute indices starting at the dummy
index.  Every reachable log satisfies this. -/
def raftLog.WF (l : raftLog) : Prop :=
  l.logs ≠ [] ∧ ∀ k : Fin l.logs.length, (l.logs.get k).index = l.dummyIndex + k

/-- Node roles (StateFollower / StateCandidate / StateLeader in the source). -/
inductive NodeState
  | StateFollower
  | StateCandidate
  | StateLeader
deriving DecidableEq

/-- The Raft node state (struct Raft in the source).  `peers` is the number of
peers len(rf.peers); `persisted` models the persister's stored blob.  Timers,
the kill flag, channels and condition variables carry no state relevant to the
verified claims and are omitted. -/
structure Raft where
  peers : Nat
  me : Nat
  state : NodeState
  currentTerm : Int
  votedFor : Int
  raftLog : raftLog
  commitIndex : Int
  lastApplied : Int
  nextIndex : List Int
  matchIndex : List Int
  persisted : Int × Int × List Entry
deriving DecidableEq

/-- Modelled from the spec: persist() is not under src/.  Spec §4.1: the node
persists (currentTerm, votedFor, log) as one opaque blob. -/
def persist (st : Raft) : Raft :=
  { st with persisted := (st.currentTerm, st.votedFor, st.raftLog.logs) }

/-- Modelled from the spec: ChangeState is not under src/.  Spec §4.2: a role
transition sets the role; term/vote updates and persistence are performed
explicitly at the call sites shown in src/, and timer resets are real-time
effects outside this embedding. -/
def ChangeState (st : Raft) (s : NodeState) : Raft := { st with state := s }

/-- AppendEntries RPC request (AppendEntriesArgs in the source). -/
structure AppendEntriesArgs where
  Term : Int
  LeaderId : Nat
  PrevLogIndex : Int
  PrevLogTerm : Int
  Entries : List Entry
  LeaderCommit : Int
deriving DecidableEq

/-- AppendEntries RPC reply (AppendEntriesReply in the source); a fresh reply
is zero-valued, and fields the handler does not assign stay zero. -/
structure AppendEntriesReply where
  Term : Int
  Success : Bool
  ConflictIndex : Int
deriving DecidableEq

/-- The inner count of advanceCommitIndexForLeader: the number of peers j
other than me with matchIndex[j] >= i. -/
def countMatch (st : Raft) (i : Int) : Nat :=
  ((List.range st.peers).filter
    (fun j => decide (j ≠ st.me) && decide (st.matchIndex.getD j 0 ≥ i))).length

/-- The descending candidate scan of advanceCommitIndexForLeader, one list
element per loop iteration (for i := lastIndex; i > commitIndex; i--).  The
returned flag records whether applyCond.Signal() was called.  The short
circuit of Go's && is kept: getEntry runs only after the majority check. -/
def commitScan (st : Raft) : List Int → Option (Raft × Bool)
  | [] => some (st, false)
  | i :: rest =>
    if countMatch st i + 1 > st.peers / 2 then
      match st.raftLog.getEntry i with
      | none => none
      | some e =>
        if e.term = st.currentTerm then some ({ st with commitIndex := i }, true)
        else commitScan st rest
    else commitScan st rest

/-- The descending index list [last, last-1, ..., commit+1] (empty when
last <= commit) traversed by advanceCommitIndexForLeader. -/
def downFrom (last commit : Int) : List Int :=
  (List.range (last - commit).toNat).map (fun k : Nat => last - (k : Int))

/-- advanceCommitIndexForLeader: returns the updated node state and whether
the applier was signalled. -/
def advanceCommitIndexForLeader (st : Raft) : Option (Raft × Bool) :=
  if st.state ≠ NodeState.StateLeader then some (st, false)
  else commitScan st (downFrom st.raftLog.lastIndex st.commitIndex)

/-- The staleness guard of processAppendEntriesReply, exactly the condition
of the source's else-if: matching reply term, still Leader, request term
still current, and the request's prevLogIndex still equal to
nextIndex[peer]-1 at processing time. -/
def StaleGuard (st : Raft) (peer : Nat) (args : AppendEntriesArgs)
    (reply : AppendEntriesReply) : Prop :=
  reply.Term = st.currentTerm ∧ st.state = NodeState.StateLeader ∧
  args.Term = st.currentTerm ∧ args.PrevLogIndex = st.nextIndex.getD peer 0 - 1

instance (st : Raft) (peer : Nat) (args : AppendEntriesArgs)
    (reply : AppendEntriesReply) : Decidable (StaleGuard st peer args reply) := by
  unfold StaleGuard; infer_instance

/-- The reply.Success branch of processAppendEntriesReply before the commit
advance: newNext := len(entries)+prevLogIndex+1 and
newMatch := len(entries)+prevLogIndex, each installed only when it exceeds
the stored value. -/
def successUpdate (st : Raft) (peer : Nat) (args : AppendEntriesArgs) : Raft :=
  let newNext := (args.Entries.length : Int) + args.PrevLogIndex + 1
  let newMatch := (args.Entries.length : Int) + args.PrevLogIndex
  let st1 := if newNext > st.nextIndex.getD peer 0 then
      { st with nextIndex := st.nextIndex.set peer newNext } else st
  if newMatch > st1.matchIndex.getD peer 0 then
    { st1 with matchIndex := st1.matchIndex.set peer newMatch } else st1

/-- processAppendEntriesReply: returns the updated node state, whether the
applier condition was signalled, and whether the peer's replicator condition
was signalled. -/
def processAppendEntriesReply (st : Raft) (peer : Nat)
    (args : AppendEntriesArgs) (reply : AppendEntriesReply) :
    Option (Raft × Bool × Bool) :=
  if reply.Term > st.currentTerm then
    let st1 := { st with currentTerm := reply.Term, votedFor := -1 }
    let st2 := ChangeState st1 NodeState.StateFollower
    some (persist st2, false, false)
  else if StaleGuard st peer args reply then
    if reply.Success then
      let st2 := successUpdate st peer args
      match advanceCommitIndexForLeader st2 with
      | none => none
      | some (st3, sig) =>
        some (st3, sig, decide (st3.nextIndex.getD peer 0 ≠ st3.raftLog.lastIndex + 1))
    else
      let st1 := { st with nextIndex := st.nextIndex.set peer reply.ConflictIndex }
      some (st1, false, decide (st1.nextIndex.getD peer 0 ≠ st1.raftLog.lastIndex + 1))
  else some (st, false, false)

/-- The backward conflict walk of HandleAppendEntries, counted down by the
distance of the current index above dummyIndex+1: at fuel k the current index
is dummyIndex+1+k.  The loop body is
for index > dummyIndex+1 && getEntry(index).Term == t: index--. -/
def conflictWalkAux (l : raftLog) (t dummy : Int) : Nat → Option Int
  | 0 => some (dummy + 1)
  | Nat.succ k =>
    match l.getEntry (dummy + 1 + (k + 1)) with
    | none => none
    | some e =>
      if e.term = t then conflictWalkAux l t dummy k
      else some (dummy + 1 + (k + 1))

/-- The backward conflict walk starting at index (= args.PrevLogIndex); when
the start is already at or below dummyIndex+1 the loop body never runs and the
start index itself is returned. -/
def conflictWalk (l : raftLog) (t dummy index : Int) : Option Int :=
  if index ≤ dummy + 1 then some index
  else conflictWalkAux l t dummy (index - (dummy + 1)).toNat

/-- The per-entry conflict scan of HandleAppendEntries: at the first entry
whose offset is at or past the slice length or whose term differs from the
stored entry, truncate there and append this entry with the rest; Go's &&
short circuit (getEntry unevaluated on an out-of-range offset) is kept. -/
def entriesScan (l : raftLog) : List Entry → Option raftLog
  | [] => some l
  | entry :: rest =>
    match l.convertIndex entry.index with
    | none => none
    | some ci =>
      if ci ≥ l.len then
        match l.trunc entry.index with
        | none => none
        | some l2 => some (l2.append (entry :: rest))
      else
        match l.getEntry entry.index with
        | none => none
        | some e =>
          if e.term ≠ entry.term then
            match l.trunc entry.index with
            | none => none
            | some l2 => some (l2.append (entry :: rest))
          else entriesScan l rest

/-- HandleAppendEntries: returns the follower state after the handler plus its
reply and whether applyCond was signalled; none models the panic("weird2")
abort and index-out-of-range aborts.  The deferred persist() runs on every
normal return after the early term check. -/
def HandleAppendEntries (st : Raft) (args : AppendEntriesArgs) :
    Option (Raft × AppendEntriesReply × Bool) :=
  if args.Term < st.currentTerm then
    some (persist st, ⟨st.currentTerm, false, 0⟩, false)
  else
    let stA := if args.Term > st.currentTerm then
        { st with currentTerm := args.Term, votedFor := -1 } else st
    let stB := ChangeState stA NodeState.StateFollower
    if args.PrevLogIndex < stB.raftLog.dummyIndex then
      none
    else
      match stB.raftLog.matchLog args.PrevLogTerm args.PrevLogIndex with
      | none => none
      | some false =>
        let lastIndex := stB.raftLog.lastIndex
        if args.PrevLogIndex > lastIndex then
          some (persist stB, ⟨stB.currentTerm, false, lastIndex + 1⟩, false)
        else
          match stB.raftLog.getEntry args.PrevLogIndex with
          | none => none
          | some abandond =>
            match conflictWalk stB.raftLog abandond.term stB.raftLog.dummyIndex
                args.PrevLogIndex with
            | none => none
            | some idx =>
              some (persist stB, ⟨stB.currentTerm, false, idx⟩, false)
      | some true =>
        match entriesScan stB.raftLog args.Entries with
        | none => none
        | some l2 =>
          let stC := { stB with raftLog := l2 }
          if args.LeaderCommit > stC.commitIndex then
            let stD := { stC with
              commitIndex := min args.LeaderCommit stC.raftLog.lastIndex }
            some (persist stD, ⟨stD.currentTerm, true, 0⟩, true)
          else
            some (persist stC, ⟨stC.currentTerm, true, 0⟩, false)

/-- Outcome of the request-building section of appendOneRound: the early
return when not leader, an abort (the sender's panic("weird") on
prevLogIndex < dummyIndex, or an out-of-range getEntry), or the built args. -/
inductive SendOutcome
  | notLeader
  | aborted
  | send (args : AppendEntriesArgs)
deriving DecidableEq

/-- appendOneRound up to the RPC send: computes prevLogIndex = nextIndex[peer]-1,
aborts below dummyIndex, replaces prevLogIndex by lastIndex+1 when it exceeds
lastIndex, then reads getEntry(prevLogIndex).Term and copies
sliceFrom(prevLogIndex+1) into the request. -/
def appendOneRoundArgs (st : Raft) (peer : Nat) : SendOutcome :=
  if st.state ≠ NodeState.StateLeader then SendOutcome.notLeader
  else
    let prevLogIndex := st.nextIndex.getD peer 0 - 1
    if prevLogIndex < st.raftLog.dummyIndex then SendOutcome.aborted
    else
      let prevLogIndex2 := if prevLogIndex > st.raftLog.lastIndex then
          st.raftLog.lastIndex + 1 else prevLogIndex
      match st.raftLog.getEntry prevLogIndex2 with
      | none => SendOutcome.aborted
      | some e =>
        match st.raftLog.sliceFrom (prevLogIndex2 + 1) with
        | none => SendOutcome.aborted
        | some ents =>
          SendOutcome.send ⟨st.currentTerm, st.me, prevLogIndex2, e.term, ents,
            st.commitIndex⟩

/-- Start: the submit interface.  Returns the updated node state together with
the Go results (index, term, isLeader).  BroadcastAppend only signals the
replicator conditions and changes no modelled state. -/
def Start (st : Raft) (command : Int) : Raft × Int × Int × Bool :=
  if st.state ≠ NodeState.StateLeader then (st, -1, -1, false)
  else
    let newLog : Entry := ⟨st.raftLog.lastIndex + 1, st.currentTerm, command⟩
    let st1 := { st with raftLog := st.raftLog.append [newLog] }
    let st2 := persist st1
    (st2, newLog.index, newLog.term, true)

/-- Apply-channel message (ApplyMsg, command case) as emitted by the applier. -/
structure ApplyMsg where
  CommandValid : Bool
  Command : Int
  CommandTerm : Int
  CommandIndex : Int
deriving DecidableEq

/-- One iteration of the applier body after the wait loop: snapshot
(commitIndex, lastApplied), copy out slice(lastApplied+1, commitIndex+1), emit
each entry on the apply channel in order, then set
lastApplied := Max(lastApplied, snapshotted commitIndex). -/
def applierIter (st : Raft) : Option (List ApplyMsg × Raft) :=
  match st.raftLog.slice (st.lastApplied + 1) (st.commitIndex + 1) with
  | none => none
  | some entries =>
    some (entries.map (fun e => ⟨true, e.command, e.term, e.index⟩),
      { st with lastApplied := max st.lastApplied st.commitIndex })

/-- Operation names from the KV layer (constants Putt, Appendd, Gett). -/
def Putt : String := "Put"

/-- Operation name for Append. -/
def Appendd : String := "Append"

/-- Operation name for Get. -/
def Gett : String := "Get"

/-- Error string constants of the KV layer. -/
def ErrWrongLeader : String := "ErrWrongLeader"

/-- A client operation as carried in the raft log by the KV layer (struct Op). -/
structure Op where
  OpTask : String
  Key : String
  Value : String
  ClientId : Int
  CommandId : Int
  Seq : Int
deriving DecidableEq

/-- The KV server state relevant to applying commands: storage, the dedupe
table latestTime, and lastApplied.  The wait-channel map, the raft handle and
the persister hold no state these claims examine. -/
structure KVServer where
  storage : String → String
  latestTime : Int → Option Int
  lastApplied : Int

/-- Modelled from the spec: MemoryKV is not under src/.  Spec §4.10: storage
is a map from string to string; Put overwrites the key's value. -/
def kvPut (storage : String → String) (key value : String) : String → String :=
  fun k => if k = key then value else storage k

/-- Modelled from the spec: MemoryKV is not under src/.  Spec §4.10 and the
KV client semantics: Append concatenates onto the key's value (missing keys
read as the empty string). -/
def kvAppend (storage : String → String) (key value : String) : String → String :=
  fun k => if k = key then storage k ++ value else storage k

/-- dupCommand: latestId, exist := latestTime[clientId];
return exist && commandId <= latestId. -/
def dupCommand (kv : KVServer) (commandId clientId : Int) : Bool :=
  match kv.latestTime clientId with
  | some latestId => commandId ≤ latestId
  | none => false

/-- The storage effect of one applied operation: Append concatenates, Put
overwrites, anything else (only Get arrives here) leaves storage alone. -/
def applyOpStorage (storage : String → String) (curOp : Op) : String → String :=
  if curOp.OpTask = Appendd then kvAppend storage curOp.Key curOp.Value
  else if curOp.OpTask = Putt then kvPut storage curOp.Key curOp.Value
  else storage

/-- The inner body of listenApplyCh after lastApplied has advanced: a
non-Get, non-duplicate operation updates storage and records its command id
in the dedupe table. -/
def applyOpToState (kv1 : KVServer) (curOp : Op) : KVServer :=
  if curOp.OpTask ≠ Gett ∧ ¬ dupCommand kv1 curOp.CommandId curOp.ClientId then
    { kv1 with
      storage := applyOpStorage kv1.storage curOp
      latestTime := fun c =>
        if c = curOp.ClientId then some curOp.CommandId else kv1.latestTime c }
  else kv1

/-- The CommandValid branch of listenApplyCh as it acts on the KV state:
advance lastApplied when the command index is new, then apply a non-Get,
non-duplicate operation to storage and record its command id.  The waiter
notification, the snapshot check (rf.Snapshot is an empty stub) and the
channel receive are I/O outside this state. -/
def applyCommandMsg (kv : KVServer) (commandIndex : Int) (curOp : Op) : KVServer :=
  if commandIndex > kv.lastApplied then
    applyOpToState { kv with lastApplied := commandIndex } curOp
  else kv

/-- Folding a sequence of command messages through listenApplyCh. -/
def applyCommandList (kv : KVServer) (msgs : List (Int × Op)) : KVServer :=
  msgs.foldl (fun s m => applyCommandMsg s m.1 m.2) kv

/-- needSnapShot: maxraftstate != -1 && float32(RaftStateSize()/maxraftstate) > 0.8.
The Go division is integer division, and float32 conversion of an integer is
order-exact against 0.8, so the comparison is modelled exactly in ℚ. -/
def needSnapShot (maxraftstate : Int) (raftStateSize : Nat) : Bool :=
  maxraftstate != -1 &&
    decide ((0.8 : ℚ) < ((((raftStateSize : Int) / maxraftstate : Int) : ℚ)))

/-- The leader check of KVServer.Command: calls Start and maps a not-leader
result to ErrWrongLeader (none means the handler proceeds to wait). -/
def CommandLeaderCheck (st : Raft) (command : Int) : Option String :=
  match Start st command with
  | (_, _, _, isLeader) => if isLeader then none else some ErrWrongLeader


instance (l : raftLog) : Decidable l.WF := by
  unfold raftLog.WF; infer_instance

theorem raftLog.WF.length_pos {l : raftLog} (h : l.WF) : 0 < l.logs.length :=
  List.length_pos.mpr h.1

theorem raftLog.getD_eq_get {l : raftLog} {n : Nat} (hn : n < l.logs.length) :
    l.logs.getD n default = l.logs.get ⟨n, hn⟩ := by
  rw [List.getD_eq_getD_get?, List.get?_eq_get hn]; rfl

theorem raftLog.WF.lastIndex_spec {l : raftLog} (h : l.WF) :
    l.lastIndex + 1 = l.dummyIndex + l.logs.length := by
  have hp := h.length_pos
  have hl : l.logs.length - 1 < l.logs.length := by omega
  have := h.2 ⟨l.logs.length - 1, hl⟩
  unfold raftLog.lastIndex
  rw [raftLog.getD_eq_get hl, this]
  simp only []
  omega

theorem raftLog.WF.dummy_le_last {l : raftLog} (h : l.WF) :
    l.dummyIndex ≤ l.lastIndex := by
  have := h.lastIndex_spec
  have := h.length_pos
  omega

theorem raftLog.convertIndex_eq {l : raftLog} {i : Int} (hge : l.dummyIndex ≤ i) :
    l.convertIndex i = some (i - l.dummyIndex).toNat := by
  unfold raftLog.convertIndex
  rw [if_neg (by omega)]

theorem raftLog.getEntry_eq_some {l : raftLog} (h : l.WF) {i : Int}
    (hge : l.dummyIndex ≤ i) (hle : i ≤ l.lastIndex) :
    ∃ hk : (i - l.dummyIndex).toNat < l.logs.length,
      l.getEntry i = some (l.logs.get ⟨(i - l.dummyIndex).toNat, hk⟩) ∧
      (l.logs.get ⟨(i - l.dummyIndex).toNat, hk⟩).index = i := by
  have hlast := h.lastIndex_spec
  have hk : (i - l.dummyIndex).toNat < l.logs.length := by omega
  refine ⟨hk, ?_, ?_⟩
  · unfold raftLog.getEntry
    rw [raftLog.convertIndex_eq hge]
    simp only [Option.bind_eq_bind, Option.some_bind, List.get?_eq_get hk]
  · rw [h.2 ⟨(i - l.dummyIndex).toNat, hk⟩]
    simp only []
    omega

theorem raftLog.getEntry_index {l : raftLog} (h : l.WF) {i : Int} {e : Entry}
    (he : l.getEntry i = some e) : e.index = i ∧ l.dummyIndex ≤ i ∧ i ≤ l.lastIndex := by
  have hlast := h.lastIndex_spec
  unfold raftLog.getEntry raftLog.convertIndex at he
  by_cases hge : i < l.dummyIndex
  · rw [if_pos hge] at he; simp at he
  · rw [if_neg hge] at he
    simp only [Option.bind_eq_bind, Option.some_bind] at he
    have hk : (i - l.dummyIndex).toNat < l.logs.length := by
      by_contra hk
      rw [List.get?_eq_none.mpr (by omega)] at he
      exact Option.noConfusion he
    rw [List.get?_eq_get hk] at he
    obtain rfl := Option.some.inj he
    have hidx : (l.logs.get ⟨(i - l.dummyIndex).toNat, hk⟩).index =
        l.dummyIndex + ((i - l.dummyIndex).toNat : Int) := h.2 ⟨(i - l.dummyIndex).toNat, hk⟩
    refine ⟨by omega, by omega, by omega⟩

theorem raftLog.getEntry_isSome_iff {l : raftLog} (h : l.WF) {i : Int} :
    (∃ e, l.getEntry i = some e) ↔ (l.dummyIndex ≤ i ∧ i ≤ l.lastIndex) := by
  constructor
  · rintro ⟨e, he⟩
    exact (l.getEntry_index h he).2
  · rintro ⟨h1, h2⟩
    obtain ⟨hk, he, _⟩ := l.getEntry_eq_some h h1 h2
    exact ⟨_, he⟩

/-- The commit condition named by claim C1 at index i: a strict majority of
the cluster (the leader itself plus every other peer p with matchIndex[p] >= i)
holds index i, and the entry at i carries the leader's current term. -/
def commitOK (st : Raft) (i : Int) : Prop :=
  2 * (countMatch st i + 1) > st.peers ∧
  (st.raftLog.getEntry i).map Entry.term = some st.currentTerm

instance (st : Raft) (i : Int) : Decidable (commitOK st i) := by
  unfold commitOK; infer_instance

theorem commitScan_spec (st : Raft) (L : List Int)
    (hpair : L.Pairwise (· > ·))
    (hsome : ∀ i ∈ L, ∃ e, st.raftLog.getEntry i = some e) :
    (∃ i ∈ L, commitScan st L = some ({ st with commitIndex := i }, true) ∧
      commitOK st i ∧ ∀ j ∈ L, j > i → ¬ commitOK st j)
    ∨ (commitScan st L = some (st, false) ∧ ∀ i ∈ L, ¬ commitOK st i) := by
  induction L with
  | nil => right; exact ⟨rfl, by simp⟩
  | cons i rest ih =>
    obtain ⟨e, he⟩ := hsome i (List.mem_cons_self i rest)
    have hmaj : (countMatch st i + 1 > st.peers / 2) ↔ 2 * (countMatch st i + 1) > st.peers := by
      omega
    by_cases hok : commitOK st i
    · left
      refine ⟨i, List.mem_cons_self i rest, ?_, hok, ?_⟩
      · obtain ⟨h1, h2⟩ := hok
        rw [he] at h2
        have h2' : e.term = st.currentTerm := by simpa using h2
        simp only [commitScan, if_pos (hmaj.mpr h1), he, if_pos h2']
      · intro j hj hji
        rcases List.mem_cons.mp hj with rfl | hj'
        · omega
        · have := (List.pairwise_cons.mp hpair).1 j hj'
          omega
    · have hrest := ih (List.pairwise_cons.mp hpair).2
        (fun j hj => hsome j (List.mem_cons_of_mem i hj))
      have hscan : commitScan st (i :: rest) = commitScan st rest := by
        by_cases h1 : countMatch st i + 1 > st.peers / 2
        · have h2 : e.term ≠ st.currentTerm := by
            intro hterm
            exact hok ⟨hmaj.mp h1, by simp [he, hterm]⟩
          simp only [commitScan, if_pos h1, he, if_neg h2]
        · simp only [commitScan, if_neg h1]
      rcases hrest with ⟨i', hi', hsc, hok', hmax⟩ | ⟨hsc, hall⟩
      · left
        refine ⟨i', List.mem_cons_of_mem i hi', by rw [hscan]; exact hsc, hok', ?_⟩
        intro j hj hji
        rcases List.mem_cons.mp hj with rfl | hj'
        · exact hok
        · exact hmax j hj' hji
      · right
        refine ⟨by rw [hscan]; exact hsc, ?_⟩
        intro j hj
        rcases List.mem_cons.mp hj with rfl | hj'
        · exact hok
        · exact hall j hj'

theorem downFrom_mem {last commit i : Int} :
    i ∈ downFrom last commit ↔ commit < i ∧ i ≤ last := by
  unfold downFrom
  simp only [List.mem_map, List.mem_range]
  constructor
  · rintro ⟨k, hk, rfl⟩; omega
  · rintro ⟨h1, h2⟩; exact ⟨(last - i).toNat, by omega, by omega⟩

theorem downFrom_pairwise (last commit : Int) :
    (downFrom last commit).Pairwise (· > ·) := by
  unfold downFrom
  have h := List.pairwise_lt_range (last - commit).toNat
  exact h.map _ (fun a b hab => by omega)

/-- The conclusion of claim C1 for a node state st: on a Leader, commitIndex
is set to the largest index i in (commitIndex, lastIndex] with a strict
majority holding i and the entry at i of the current term, and the applier is
signalled; with no such i, or off the Leader role, nothing changes and no
signal fires. -/
def AdvanceCommitConclusion (st : Raft) : Prop :=
  (st.state = NodeState.StateLeader →
    (∃ i, st.commitIndex < i ∧ i ≤ st.raftLog.lastIndex ∧ commitOK st i ∧
        advanceCommitIndexForLeader st = some ({ st with commitIndex := i }, true) ∧
        ∀ j, i < j → j ≤ st.raftLog.lastIndex → ¬ commitOK st j)
    ∨ (advanceCommitIndexForLeader st = some (st, false) ∧
        ∀ i, st.commitIndex < i → i ≤ st.raftLog.lastIndex → ¬ commitOK st i))
  ∧ (st.state ≠ NodeState.StateLeader →
      advanceCommitIndexForLeader st = some (st, false))

/-- Claim C1: advanceCommitIndexForLeader, called on a Leader, sets
commitIndex to the largest index i with commitIndex < i <= lastIndex such
that a strict majority of the cluster (the leader itself plus every peer p
with matchIndex[p] >= i) holds index i and the entry at i has term equal to
currentTerm, then signals the applier; if no such i exists, or the node is
not Leader, commitIndex is unchanged.  Replicating entries of an older term
to a majority thus never advances commitIndex past them, by the term
conjunct of commitOK. -/
theorem claim_C1 (st : Raft) (hwf : st.raftLog.WF)
    (hd : st.raftLog.dummyIndex ≤ st.commitIndex) :
    AdvanceCommitConclusion st := by
  constructor
  · intro hlead
    have hadv : advanceCommitIndexForLeader st =
        commitScan st (downFrom st.raftLog.lastIndex st.commitIndex) := by
      unfold advanceCommitIndexForLeader
      rw [if_neg (by simp [hlead])]
    have hsome : ∀ i ∈ downFrom st.raftLog.lastIndex st.commitIndex,
        ∃ e, st.raftLog.getEntry i = some e := by
      intro i hi
      obtain ⟨h1, h2⟩ := downFrom_mem.mp hi
      obtain ⟨hk, he, _⟩ := st.raftLog.getEntry_eq_some hwf (by omega) h2
      exact ⟨_, he⟩
    rcases commitScan_spec st _ (downFrom_pairwise _ _) hsome with
      ⟨i, hi, hsc, hok, hmax⟩ | ⟨hsc, hall⟩
    · left
      obtain ⟨h1, h2⟩ := downFrom_mem.mp hi
      refine ⟨i, h1, h2, hok, by rw [hadv]; exact hsc, ?_⟩
      intro j hji hj2
      exact hmax j (downFrom_mem.mpr ⟨by omega, hj2⟩) hji
    · right
      refine ⟨by rw [hadv]; exact hsc, ?_⟩
      intro i h1 h2
      exact hall i (downFrom_mem.mpr ⟨h1, h2⟩)
  · intro hnl
    unfold advanceCommitIndexForLeader
    rw [if_pos hnl]

/-- Concrete 3-node leader state for the C1 witness: term 2, log entries of
terms 1, 2, 2; peer 1 matches through index 2, peer 2 through index 1. -/
def stC1 : Raft :=
  { peers := 3, me := 0, state := NodeState.StateLeader, currentTerm := 2,
    votedFor := 0, raftLog := ⟨[⟨0,0,0⟩, ⟨1,1,11⟩, ⟨2,2,12⟩, ⟨3,2,13⟩]⟩,
    commitIndex := 0, lastApplied := 0,
    nextIndex := [4,3,2], matchIndex := [0,2,1], persisted := (0, -1, []) }

/-- Witness for claim C1 at the concrete leader state stC1. -/
theorem claim_C1_witness :
    (stC1.raftLog.WF ∧ stC1.raftLog.dummyIndex ≤ stC1.commitIndex) ∧
    AdvanceCommitConclusion stC1 :=
  ⟨⟨by decide, by decide⟩, claim_C1 stC1 (by decide) (by decide)⟩


theorem getD_set_self (l : List Int) (n : Nat) (v : Int) :
    (l.set n v).getD n 0 = if n < l.length then v else 0 := by
  induction l generalizing n with
  | nil => simp
  | cons a t ih =>
    cases n with
    | zero => simp
    | succ m =>
      simp only [List.set, List.getD, List.length_cons]
      have := ih m
      simp only [List.getD] at this
      rw [List.get?_cons_succ, this]
      by_cases h : m < t.length
      · rw [if_pos h, if_pos (by omega)]
      · rw [if_neg h, if_neg (by omega)]

theorem getD_out_of_range (l : List Int) (n : Nat) (h : ¬ n < l.length) :
    l.getD n 0 = 0 := by
  rw [List.getD_eq_getD_get?, List.get?_eq_none.mpr (by omega)]
  rfl

theorem advanceCommit_frame (st : Raft) (hwf : st.raftLog.WF)
    (hd : st.raftLog.dummyIndex ≤ st.commitIndex) :
    ∃ st' sig, advanceCommitIndexForLeader st = some (st', sig) ∧
      st'.nextIndex = st.nextIndex ∧ st'.matchIndex = st.matchIndex ∧
      st'.raftLog = st.raftLog ∧ st'.currentTerm = st.currentTerm ∧
      st'.votedFor = st.votedFor ∧ st'.state = st.state ∧
      st'.persisted = st.persisted ∧ st.commitIndex ≤ st'.commitIndex := by
  unfold advanceCommitIndexForLeader
  by_cases hlead : st.state ≠ NodeState.StateLeader
  · rw [if_pos hlead]
    exact ⟨st, false, rfl, rfl, rfl, rfl, rfl, rfl, rfl, rfl, le_refl _⟩
  · rw [if_neg hlead]
    have hsome : ∀ i ∈ downFrom st.raftLog.lastIndex st.commitIndex,
        ∃ e, st.raftLog.getEntry i = some e := by
      intro i hi
      obtain ⟨h1, h2⟩ := downFrom_mem.mp hi
      obtain ⟨hk, he, _⟩ := st.raftLog.getEntry_eq_some hwf (by omega) h2
      exact ⟨_, he⟩
    rcases commitScan_spec st _ (downFrom_pairwise _ _) hsome with
      ⟨i, hi, hsc, _, _⟩ | ⟨hsc, _⟩
    · obtain ⟨h1, _⟩ := downFrom_mem.mp hi
      refine ⟨_, true, hsc, rfl, rfl, rfl, rfl, rfl, rfl, rfl, ?_⟩
      show st.commitIndex ≤ i
      omega
    · exact ⟨st, false, hsc, rfl, rfl, rfl, rfl, rfl, rfl, rfl, le_refl _⟩

theorem successUpdate_frame (st : Raft) (peer : Nat) (args : AppendEntriesArgs) :
    (successUpdate st peer args).raftLog = st.raftLog ∧
    (successUpdate st peer args).commitIndex = st.commitIndex ∧
    (successUpdate st peer args).currentTerm = st.currentTerm ∧
    (successUpdate st peer args).votedFor = st.votedFor ∧
    (successUpdate st peer args).state = st.state ∧
    (successUpdate st peer args).persisted = st.persisted ∧
    st.nextIndex.getD peer 0 ≤ (successUpdate st peer args).nextIndex.getD peer 0 ∧
    st.matchIndex.getD peer 0 ≤ (successUpdate st peer args).matchIndex.getD peer 0 := by
  have hnext : ∀ v, st.nextIndex.getD peer 0 > v ∨
      st.nextIndex.getD peer 0 ≤ (st.nextIndex.set peer v).getD peer 0 := by
    intro v
    rw [getD_set_self]
    by_cases hp : peer < st.nextIndex.length
    · rw [if_pos hp]; omega
    · rw [if_neg hp, getD_out_of_range _ _ hp]; omega
  have hmatch : ∀ v, st.matchIndex.getD peer 0 > v ∨
      st.matchIndex.getD peer 0 ≤ (st.matchIndex.set peer v).getD peer 0 := by
    intro v
    rw [getD_set_self]
    by_cases hp : peer < st.matchIndex.length
    · rw [if_pos hp]; omega
    · rw [if_neg hp, getD_out_of_range _ _ hp]; omega
  unfold successUpdate
  by_cases h1 : (args.Entries.length : Int) + args.PrevLogIndex + 1 >
      st.nextIndex.getD peer 0
  · simp only [if_pos h1]
    by_cases h2 : (args.Entries.length : Int) + args.PrevLogIndex >
        st.matchIndex.getD peer 0
    · simp only [if_pos h2]
      refine ⟨trivial, trivial, trivial, trivial, trivial, trivial, ?_, ?_⟩
      · rcases hnext ((args.Entries.length : Int) + args.PrevLogIndex + 1) with h | h
        · omega
        · exact h
      · rcases hmatch ((args.Entries.length : Int) + args.PrevLogIndex) with h | h
        · omega
        · exact h
    · simp only [if_neg h2]
      refine ⟨trivial, trivial, trivial, trivial, trivial, trivial, ?_, le_refl _⟩
      rcases hnext ((args.Entries.length : Int) + args.PrevLogIndex + 1) with h | h
      · omega
      · exact h
  · simp only [if_neg h1]
    by_cases h2 : (args.Entries.length : Int) + args.PrevLogIndex >
        st.matchIndex.getD peer 0
    · simp only [if_pos h2]
      refine ⟨trivial, trivial, trivial, trivial, trivial, trivial, le_refl _, ?_⟩
      rcases hmatch ((args.Entries.length : Int) + args.PrevLogIndex) with h | h
      · omega
      · exact h
    · simp only [if_neg h2]
      exact ⟨trivial, trivial, trivial, trivial, trivial, trivial, le_refl _, le_refl _⟩

/-- Claim C4: a reply with reply.Term <= currentTerm that fails the staleness
guard (no longer Leader, or reply.Term != currentTerm, or
args.Term != currentTerm, or args.PrevLogIndex != nextIndex[peer]-1 at
processing time) changes no node state at all; and a successful non-stale
reply never decreases nextIndex[peer] or matchIndex[peer]. -/
theorem claim_C4 :
    (∀ st peer args reply, reply.Term ≤ st.currentTerm →
      ¬ StaleGuard st peer args reply →
      processAppendEntriesReply st peer args reply = some (st, false, false))
    ∧ (∀ st peer args reply, st.raftLog.WF →
      st.raftLog.dummyIndex ≤ st.commitIndex →
      StaleGuard st peer args reply → reply.Success = true →
      ∃ st' sig tsig,
        processAppendEntriesReply st peer args reply = some (st', sig, tsig) ∧
        st.nextIndex.getD peer 0 ≤ st'.nextIndex.getD peer 0 ∧
        st.matchIndex.getD peer 0 ≤ st'.matchIndex.getD peer 0) := by
  constructor
  · intro st peer args reply hle hguard
    unfold processAppendEntriesReply
    rw [if_neg (by omega), if_neg hguard]
  · intro st peer args reply hwf hd hguard hsucc
    have hrt := hguard.1
    unfold processAppendEntriesReply
    rw [if_neg (by omega), if_pos hguard, hsucc, if_pos rfl]
    obtain ⟨hlog, hci, _, _, _, _, hnext, hmatch⟩ := successUpdate_frame st peer args
    obtain ⟨st3, sig, hadv, hn3, hm3, _, _, _, _, _, _⟩ :=
      advanceCommit_frame (successUpdate st peer args)
        (by rw [hlog]; exact hwf) (by rw [hlog, hci]; exact hd)
    simp only [hadv]
    exact ⟨st3, sig, _, rfl, by rw [hn3]; exact hnext, by rw [hm3]; exact hmatch⟩

/-- Concrete leader state for the C4 witness. -/
def stC4 : Raft :=
  { peers := 3, me := 0, state := NodeState.StateLeader, currentTerm := 2,
    votedFor := 0, raftLog := ⟨[⟨0,0,0⟩, ⟨1,1,11⟩, ⟨2,2,12⟩, ⟨3,2,13⟩]⟩,
    commitIndex := 0, lastApplied := 0,
    nextIndex := [4,3,2], matchIndex := [0,2,1], persisted := (0, -1, []) }

/-- A stale request for the C4 witness (an old-term reply). -/
def argsC4s : AppendEntriesArgs :=
  { Term := 1, LeaderId := 0, PrevLogIndex := 2, PrevLogTerm := 1,
    Entries := [], LeaderCommit := 0 }

/-- A non-stale request for the C4 witness. -/
def argsC4m : AppendEntriesArgs :=
  { Term := 2, LeaderId := 0, PrevLogIndex := 2, PrevLogTerm := 2,
    Entries := [⟨3,2,13⟩], LeaderCommit := 0 }

/-- Witness for claim C4: the stale reply leaves stC4 untouched, and the
successful non-stale reply keeps nextIndex[1], matchIndex[1] monotone. -/
theorem claim_C4_witness :
    processAppendEntriesReply stC4 1 argsC4s ⟨1, true, 0⟩ = some (stC4, false, false) ∧
    (∃ st' sig tsig,
      processAppendEntriesReply stC4 1 argsC4m ⟨2, true, 0⟩ = some (st', sig, tsig) ∧
      stC4.nextIndex.getD 1 0 ≤ st'.nextIndex.getD 1 0 ∧
      stC4.matchIndex.getD 1 0 ≤ st'.matchIndex.getD 1 0) :=
  ⟨claim_C4.1 stC4 1 argsC4s ⟨1, true, 0⟩ (by decide) (by decide),
   claim_C4.2 stC4 1 argsC4m ⟨2, true, 0⟩ (by decide) (by decide) (by decide) rfl⟩

/-- Claim C10: Start on a non-Leader returns (-1, -1, false) and changes
nothing (persisted blob included); Start on a Leader appends exactly one
entry at lastIndex+1 with the current term, persists, and returns that
index, that term and true; the KV layer turns the not-leader result into
ErrWrongLeader. -/
theorem claim_C10 :
    (∀ st command, st.state ≠ NodeState.StateLeader →
      Start st command = (st, -1, -1, false))
    ∧ (∀ st command, st.state = NodeState.StateLeader →
      ∃ st', Start st command = (st', st.raftLog.lastIndex + 1, st.currentTerm, true) ∧
        st'.raftLog.logs = st.raftLog.logs ++
          [⟨st.raftLog.lastIndex + 1, st.currentTerm, command⟩] ∧
        st'.persisted = (st.currentTerm, st.votedFor, st'.raftLog.logs) ∧
        st'.currentTerm = st.currentTerm ∧ st'.votedFor = st.votedFor ∧
        st'.state = st.state ∧ st'.commitIndex = st.commitIndex ∧
        st'.lastApplied = st.lastApplied ∧ st'.nextIndex = st.nextIndex ∧
        st'.matchIndex = st.matchIndex)
    ∧ (∀ st command, st.state ≠ NodeState.StateLeader →
      CommandLeaderCheck st command = some ErrWrongLeader) := by
  refine ⟨?_, ?_, ?_⟩
  · intro st command hnl
    unfold Start
    rw [if_pos hnl]
  · intro st command hl
    unfold Start
    rw [if_neg (by simp [hl])]
    exact ⟨_, rfl, rfl, rfl, rfl, rfl, rfl, rfl, rfl, rfl, rfl⟩
  · intro st command hnl
    unfold CommandLeaderCheck
    rw [show Start st command = (st, -1, -1, false) from by unfold Start; rw [if_pos hnl]]
    rfl

/-- Concrete states for the C10 witness. -/
def stC10f : Raft :=
  { peers := 3, me := 2, state := NodeState.StateFollower, currentTerm := 1,
    votedFor := 0, raftLog := ⟨[⟨0,0,0⟩, ⟨1,1,11⟩]⟩, commitIndex := 0,
    lastApplied := 0, nextIndex := [0,0,0], matchIndex := [0,0,0],
    persisted := (1, 0, [⟨0,0,0⟩, ⟨1,1,11⟩]) }

/-- Concrete leader state for the C10 witness. -/
def stC10l : Raft := { stC10f with state := NodeState.StateLeader }

/-- Witness for claim C10 at a concrete follower and a concrete leader. -/
theorem claim_C10_witness :
    Start stC10f 42 = (stC10f, -1, -1, false) ∧
    (∃ st', Start stC10l 42 =
        (st', stC10l.raftLog.lastIndex + 1, stC10l.currentTerm, true) ∧
      st'.raftLog.logs = stC10l.raftLog.logs ++
        [⟨stC10l.raftLog.lastIndex + 1, stC10l.currentTerm, 42⟩] ∧
      st'.persisted = (stC10l.currentTerm, stC10l.votedFor, st'.raftLog.logs) ∧
      st'.currentTerm = stC10l.currentTerm ∧ st'.votedFor = stC10l.votedFor ∧
      st'.state = stC10l.state ∧ st'.commitIndex = stC10l.commitIndex ∧
      st'.lastApplied = stC10l.lastApplied ∧ st'.nextIndex = stC10l.nextIndex ∧
      st'.matchIndex = stC10l.matchIndex) ∧
    CommandLeaderCheck stC10f 42 = some ErrWrongLeader :=
  ⟨claim_C10.1 stC10f 42 (by decide),
   claim_C10.2.1 stC10l 42 (by decide),
   claim_C10.2.2 stC10f 42 (by decide)⟩

/-- Concrete leader state for claim C6: lastIndex = 1 but nextIndex[1] = 3,
so the computed prevLogIndex = 2 exceeds lastIndex. -/
def stC6 : Raft :=
  { peers := 3, me := 0, state := NodeState.StateLeader, currentTerm := 2,
    votedFor := 0, raftLog := ⟨[⟨0,0,0⟩, ⟨1,1,11⟩]⟩, commitIndex := 0,
    lastApplied := 0, nextIndex := [2,3,2], matchIndex := [1,0,0],
    persisted := (0, -1, []) }

/-- Claim C6 (refuted by the code): instead of clamping prevLogIndex to
lastIndex, appendOneRound sets it to lastIndex+1, so the following
getEntry(prevLogIndex) indexes one past the end of the slice and the sender
aborts; at stC6 with peer 1 (prevLogIndex = 2 > lastIndex = 1) the outcome
is the abort, not an AppendEntries request with the last entry as previous
and an empty entries slice. -/
theorem claim_C6 :
    stC6.raftLog.WF ∧ stC6.state = NodeState.StateLeader ∧
    stC6.nextIndex.getD 1 0 - 1 > stC6.raftLog.lastIndex ∧
    appendOneRoundArgs stC6 1 = SendOutcome.aborted ∧
    (∀ a : AppendEntriesArgs, appendOneRoundArgs stC6 1 ≠ SendOutcome.send a) := by
  refine ⟨by decide, by decide, by decide, by decide, ?_⟩
  intro a
  rw [show appendOneRoundArgs stC6 1 = SendOutcome.aborted from by decide]
  exact fun h => SendOutcome.noConfusion h

/-- Claim C7, amended: when args.Term >= currentTerm and
args.PrevLogIndex < dummyIndex, HandleAppendEntries does not return normally
at all: it sets the reply to (0, false) and then aborts (panic "weird2", the
return being commented out), modelled as none. -/
theorem claim_C7_amended (st : Raft) (args : AppendEntriesArgs)
    (h1 : st.currentTerm ≤ args.Term)
    (h2 : args.PrevLogIndex < st.raftLog.dummyIndex) :
    HandleAppendEntries st args = none := by
  unfold HandleAppendEntries ChangeState
  rw [if_neg (by omega)]
  by_cases h : args.Term > st.currentTerm
  · simp only [if_pos h]
    rw [if_pos h2]
  · simp only [if_neg h]
    rw [if_pos h2]

/-- Concrete follower state for claim C7 (fresh log, dummyIndex = 0). -/
def stC7 : Raft :=
  { peers := 3, me := 2, state := NodeState.StateFollower, currentTerm := 1,
    votedFor := 0, raftLog := ⟨[⟨0,0,0⟩, ⟨1,1,11⟩]⟩, commitIndex := 0,
    lastApplied := 0, nextIndex := [0,0,0], matchIndex := [0,0,0],
    persisted := (1, 0, [⟨0,0,0⟩, ⟨1,1,11⟩]) }

/-- A request whose prevLogIndex lies below the dummy index of stC7. -/
def argsC7 : AppendEntriesArgs :=
  { Term := 1, LeaderId := 0, PrevLogIndex := -1, PrevLogTerm := 0,
    Entries := [], LeaderCommit := 0 }

/-- Counterexample to claim C7 as stated: at stC7 and argsC7 the handler
aborts (none) and in particular returns no reply with term 0 and
success false. -/
theorem claim_C7_counterexample :
    stC7.currentTerm ≤ argsC7.Term ∧
    argsC7.PrevLogIndex < stC7.raftLog.dummyIndex ∧
    HandleAppendEntries stC7 argsC7 = none ∧
    (∀ out : Raft × AppendEntriesReply × Bool,
      HandleAppendEntries stC7 argsC7 ≠ some out) := by
  refine ⟨by decide, by decide, by decide, ?_⟩
  intro out
  rw [show HandleAppendEntries stC7 argsC7 = none from by decide]
  exact fun h => Option.noConfusion h

/-- Witness for the amended claim C7 at the concrete input. -/
theorem claim_C7_witness :
    (stC7.currentTerm ≤ argsC7.Term ∧
      argsC7.PrevLogIndex < stC7.raftLog.dummyIndex) ∧
    HandleAppendEntries stC7 argsC7 = none :=
  ⟨⟨by decide, by decide⟩, claim_C7_amended stC7 argsC7 (by decide) (by decide)⟩

/-- Claim C9 (refuted by the code): needSnapShot divides RaftStateSize by
maxraftstate with integer division before converting to float, so at
maxraftstate = 10 and RaftStateSize = 9 the claimed condition
RaftStateSize > 0.8 * maxraftstate holds while needSnapShot returns false;
the code's test is equivalent to RaftStateSize >= maxraftstate (it does
return true at size 10). -/
theorem claim_C9 :
    needSnapShot 10 9 = false ∧ (0.8 : ℚ) * 10 < (9 : ℚ) ∧
    needSnapShot 10 10 = true ∧ needSnapShot (-1) 1000 = false := by
  refine ⟨?_, by norm_num, ?_, ?_⟩
  · simp [needSnapShot]; norm_num
  · simp [needSnapShot]; norm_num
  · simp [needSnapShot]

theorem raftLog.slice_spec (l : raftLog) (hwf : l.WF) {low high : Int}
    (h1 : l.dummyIndex ≤ low) (h2 : low ≤ high) (h3 : high ≤ l.lastIndex + 1) :
    ∃ ents, l.slice low high = some ents ∧
      (ents.length : Int) = high - low ∧
      ∀ k (hk : k < ents.length),
        l.getEntry (low + k) = some (ents.get ⟨k, hk⟩) ∧
        (ents.get ⟨k, hk⟩).index = low + k := by
  have hlast := hwf.lastIndex_spec
  unfold raftLog.slice
  rw [raftLog.convertIndex_eq h1, raftLog.convertIndex_eq (by omega)]
  simp only [Option.bind_eq_bind, Option.some_bind]
  rw [if_pos (by constructor <;> omega)]
  have hblen : (high - l.dummyIndex).toNat ≤ l.logs.length := by omega
  have hlen : ((l.logs.take (high - l.dummyIndex).toNat).drop
      (low - l.dummyIndex).toNat).length = (high - low).toNat := by
    rw [List.length_drop, List.length_take, min_eq_left hblen]; omega
  refine ⟨_, rfl, by rw [hlen]; omega, ?_⟩
  intro k hk
  have hk' : k < (high - low).toNat := by rw [hlen] at hk; exact hk
  have hik : (low - l.dummyIndex).toNat + k < l.logs.length := by omega
  have hget : ((l.logs.take (high - l.dummyIndex).toNat).drop
      (low - l.dummyIndex).toNat).get ⟨k, hk⟩ =
      l.logs.get ⟨(low - l.dummyIndex).toNat + k, hik⟩ := by
    rw [List.get_eq_getElem, List.get_eq_getElem, List.getElem_drop,
      List.getElem_take]
  have hidx : (l.logs.get ⟨(low - l.dummyIndex).toNat + k, hik⟩).index =
      l.dummyIndex + ((low - l.dummyIndex).toNat + k : Nat) :=
    hwf.2 ⟨(low - l.dummyIndex).toNat + k, hik⟩
  constructor
  · unfold raftLog.getEntry
    rw [raftLog.convertIndex_eq (by omega)]
    simp only [Option.bind_eq_bind, Option.some_bind]
    have : ((low + k - l.dummyIndex)).toNat = (low - l.dummyIndex).toNat + k := by
      omega
    rw [this, List.get?_eq_get hik, hget]
  · rw [hget, hidx]; omega

def ApplierConclusion (st : Raft) : Prop :=
    ∃ msgs st', applierIter st = some (msgs, st') ∧
      (msgs.length : Int) = st.commitIndex - st.lastApplied ∧
      (∀ k (hk : k < msgs.length),
        (msgs.get ⟨k, hk⟩).CommandValid = true ∧
        (msgs.get ⟨k, hk⟩).CommandIndex = st.lastApplied + 1 + k ∧
        st.raftLog.getEntry (st.lastApplied + 1 + k) =
          some ⟨st.lastApplied + 1 + k, (msgs.get ⟨k, hk⟩).CommandTerm,
                (msgs.get ⟨k, hk⟩).Command⟩) ∧
      st'.lastApplied = max st.lastApplied st.commitIndex ∧
      st'.commitIndex = st.commitIndex ∧ st'.raftLog = st.raftLog ∧
      st'.lastApplied ≤ st'.commitIndex ∧
      (∀ k (hk : k < msgs.length),
        st.lastApplied < (msgs.get ⟨k, hk⟩).CommandIndex ∧
        (msgs.get ⟨k, hk⟩).CommandIndex ≤ st'.lastApplied)

theorem applierIter_spec (st : Raft) (hwf : st.raftLog.WF)
    (hd : st.raftLog.dummyIndex ≤ st.lastApplied)
    (h1 : st.lastApplied ≤ st.commitIndex)
    (h2 : st.commitIndex ≤ st.raftLog.lastIndex) :
    ∃ msgs st', applierIter st = some (msgs, st') ∧
      (msgs.length : Int) = st.commitIndex - st.lastApplied ∧
      (∀ k (hk : k < msgs.length),
        (msgs.get ⟨k, hk⟩).CommandValid = true ∧
        (msgs.get ⟨k, hk⟩).CommandIndex = st.lastApplied + 1 + k ∧
        st.raftLog.getEntry (st.lastApplied + 1 + k) =
          some ⟨st.lastApplied + 1 + k, (msgs.get ⟨k, hk⟩).CommandTerm,
                (msgs.get ⟨k, hk⟩).Command⟩) ∧
      st'.lastApplied = max st.lastApplied st.commitIndex ∧
      st'.commitIndex = st.commitIndex ∧ st'.raftLog = st.raftLog ∧
      st'.lastApplied ≤ st'.commitIndex ∧
      (∀ k (hk : k < msgs.length),
        st.lastApplied < (msgs.get ⟨k, hk⟩).CommandIndex ∧
        (msgs.get ⟨k, hk⟩).CommandIndex ≤ st'.lastApplied) := by
  obtain ⟨ents, hsl, hlen, hent⟩ :=
    @raftLog.slice_spec st.raftLog hwf (st.lastApplied + 1) (st.commitIndex + 1)
      (by omega) (by omega) (by omega)
  unfold applierIter
  rw [hsl]
  have hmap : ∀ k (hk : k < (ents.map
      (fun e => (⟨true, e.command, e.term, e.index⟩ : ApplyMsg))).length),
      ∃ hk' : k < ents.length,
        (ents.map (fun e => (⟨true, e.command, e.term, e.index⟩ : ApplyMsg))).get
          ⟨k, hk⟩ = ⟨true, (ents.get ⟨k, hk'⟩).command, (ents.get ⟨k, hk'⟩).term,
            (ents.get ⟨k, hk'⟩).index⟩ := by
    intro k hk
    have hk' : k < ents.length := by
      rw [List.length_map] at hk; exact hk
    refine ⟨hk', ?_⟩
    rw [List.get_eq_getElem, List.get_eq_getElem, List.getElem_map]
  refine ⟨_, _, rfl, by rw [List.length_map, hlen]; ring, ?_, rfl, rfl, rfl,
    by simp only []; omega, ?_⟩
  · intro k hk
    obtain ⟨hk', hmk⟩ := hmap k hk
    obtain ⟨hge, hidx⟩ := hent k hk'
    have hadd : st.lastApplied + 1 + (k : Int) = st.lastApplied + 1 + k := rfl
    refine ⟨by rw [hmk], ?_, ?_⟩
    · rw [hmk]
      show (ents.get ⟨k, hk'⟩).index = st.lastApplied + 1 + (k : Int)
      omega
    · rw [hmk]
      show st.raftLog.getEntry (st.lastApplied + 1 + (k : Int)) =
        some ⟨st.lastApplied + 1 + (k : Int), (ents.get ⟨k, hk'⟩).term,
          (ents.get ⟨k, hk'⟩).command⟩
      rw [hge, ← hidx]
  · intro k hk
    obtain ⟨hk', hmk⟩ := hmap k hk
    obtain ⟨hge, hidx⟩ := hent k hk'
    constructor
    · rw [hmk]
      show st.lastApplied < (ents.get ⟨k, hk'⟩).index
      omega
    · rw [hmk]
      show (ents.get ⟨k, hk'⟩).index ≤
        ({ st with lastApplied := max st.lastApplied st.commitIndex }).lastApplied
      have hkl : (k : Int) < st.commitIndex - st.lastApplied := by
        rw [List.length_map] at hk; omega
      simp only []
      omega

/-- Claim C3: one iteration of the applier body emits exactly the entries at
indices lastApplied+1 .. commitIndex in strictly increasing index order
(message k carries index lastApplied+1+k and the stored entry's term and
command), then sets lastApplied to max(lastApplied, snapshotted commitIndex);
lastApplied <= commitIndex is preserved, and every emitted index lies in
(lastApplied, new lastApplied], so successive iterations never emit an index
twice. -/
theorem claim_C3 (st : Raft) (hwf : st.raftLog.WF)
    (hd : st.raftLog.dummyIndex ≤ st.lastApplied)
    (h1 : st.lastApplied ≤ st.commitIndex)
    (h2 : st.commitIndex ≤ st.raftLog.lastIndex) :
    ApplierConclusion st := by
  unfold ApplierConclusion
  exact applierIter_spec st hwf hd h1 h2


/-- Concrete state for the C3 witness: two committed unapplied entries. -/
def stC3 : Raft :=
  { peers := 3, me := 0, state := NodeState.StateLeader, currentTerm := 2,
    votedFor := 0, raftLog := ⟨[⟨0,0,0⟩, ⟨1,1,11⟩, ⟨2,2,12⟩, ⟨3,2,13⟩]⟩,
    commitIndex := 2, lastApplied := 0,
    nextIndex := [4,3,2], matchIndex := [0,2,1], persisted := (0, -1, []) }

/-- Witness for claim C3 at the concrete state stC3. -/
theorem claim_C3_witness :
    (stC3.raftLog.WF ∧ stC3.raftLog.dummyIndex ≤ stC3.lastApplied ∧
      stC3.lastApplied ≤ stC3.commitIndex ∧
      stC3.commitIndex ≤ stC3.raftLog.lastIndex) ∧
    ApplierConclusion stC3 :=
  ⟨⟨by decide, by decide, by decide, by decide⟩,
   claim_C3 stC3 (by decide) (by decide) (by decide) (by decide)⟩

/-- Declarative description of the backward conflict walk from prev with
abandoned term t: below dummyIndex+2 the start itself is returned; otherwise
the result r stays in [dummyIndex+1, prev], every index in (r, prev] still
has term t, and a result above dummyIndex+1 sits on the first different
term. -/
def ConflictSpec (l : raftLog) (t prev r : Int) : Prop :=
  if prev ≤ l.dummyIndex + 1 then r = prev
  else l.dummyIndex + 1 ≤ r ∧ r ≤ prev ∧
    (∀ j, r < j → j ≤ prev → (l.getEntry j).map Entry.term = some t) ∧
    (l.dummyIndex + 1 < r → (l.getEntry r).map Entry.term ≠ some t)

theorem conflictWalkAux_spec (l : raftLog) (hwf : l.WF) (t : Int) :
    ∀ k : Nat, l.dummyIndex + 1 + k ≤ l.lastIndex →
    ∃ r, conflictWalkAux l t l.dummyIndex k = some r ∧
      l.dummyIndex + 1 ≤ r ∧ r ≤ l.dummyIndex + 1 + k ∧
      (∀ j, r < j → j ≤ l.dummyIndex + 1 + k →
        (l.getEntry j).map Entry.term = some t) ∧
      (l.dummyIndex + 1 < r → (l.getEntry r).map Entry.term ≠ some t) := by
  intro k
  induction k with
  | zero =>
    intro _
    refine ⟨l.dummyIndex + 1, rfl, le_refl _, by omega, ?_, by omega⟩
    intro j hj1 hj2
    omega
  | succ k ih =>
    intro hub
    have hin1 : l.dummyIndex ≤ l.dummyIndex + 1 + ((k : Int) + 1) := by omega
    have hin2 : l.dummyIndex + 1 + ((k : Int) + 1) ≤ l.lastIndex := by
      push_cast at hub; omega
    obtain ⟨hk, he, hidx⟩ := l.getEntry_eq_some hwf hin1 hin2
    by_cases hterm : (l.logs.get ⟨(l.dummyIndex + 1 + ((k : Int) + 1) -
        l.dummyIndex).toNat, hk⟩).term = t
    · obtain ⟨r, hr, hb1, hb2, hall, hstop⟩ := ih (by omega)
      refine ⟨r, ?_, hb1, by push_cast; omega, ?_, hstop⟩
      · show conflictWalkAux l t l.dummyIndex (k + 1) = some r
        unfold conflictWalkAux
        rw [he]
        show (if (l.logs.get ⟨(l.dummyIndex + 1 + ((k : Int) + 1) -
            l.dummyIndex).toNat, hk⟩).term = t then
            conflictWalkAux l t l.dummyIndex k
          else some (l.dummyIndex + 1 + ((k : Int) + 1))) = some r
        rw [if_pos hterm]
        exact hr
      · intro j hj1 hj2
        by_cases hj3 : j ≤ l.dummyIndex + 1 + k
        · exact hall j hj1 hj3
        · have hj4 : j = l.dummyIndex + 1 + ((k : Int) + 1) := by
            push_cast at hj2; omega
          rw [hj4, he]
          simp only [Option.map_some']
          rw [hterm]
    · refine ⟨l.dummyIndex + 1 + ((k : Int) + 1), ?_, by omega,
        by push_cast; omega, ?_, ?_⟩
      · show conflictWalkAux l t l.dummyIndex (k + 1) = _
        unfold conflictWalkAux
        rw [he]
        show (if (l.logs.get ⟨(l.dummyIndex + 1 + ((k : Int) + 1) -
            l.dummyIndex).toNat, hk⟩).term = t then
            conflictWalkAux l t l.dummyIndex k
          else some (l.dummyIndex + 1 + ((k : Int) + 1))) = _
        rw [if_neg hterm]
      · intro j hj1 hj2
        push_cast at hj2
        omega
      · intro _
        rw [he]
        intro hcon
        simp only [Option.map_some'] at hcon
        exact hterm (Option.some.inj hcon)

theorem conflictWalk_spec (l : raftLog) (hwf : l.WF) (t prev : Int)
    (_hlb : l.dummyIndex ≤ prev) (hub : prev ≤ l.lastIndex) :
    ∃ r, conflictWalk l t l.dummyIndex prev = some r ∧
      ConflictSpec l t prev r := by
  unfold conflictWalk ConflictSpec
  by_cases hsmall : prev ≤ l.dummyIndex + 1
  · simp only [if_pos hsmall]
    exact ⟨prev, rfl, rfl⟩
  · simp only [if_neg hsmall]
    obtain ⟨r, hr, hb1, hb2, hall, hstop⟩ := conflictWalkAux_spec l hwf t
      (prev - (l.dummyIndex + 1)).toNat (by omega)
    have hcast : l.dummyIndex + 1 + ((prev - (l.dummyIndex + 1)).toNat : Int) =
        prev := by omega
    rw [hcast] at hb2 hall
    exact ⟨r, hr, hb1, hb2, hall, hstop⟩

/-- Claim C5, amended: on a log-mismatch rejection the reply's conflictIndex
is lastIndex+1 when args.PrevLogIndex > lastIndex, and otherwise the result
of the backward walk from args.PrevLogIndex over the abandoned term; it is
always >= dummyIndex, and strictly greater whenever args.PrevLogIndex >
dummyIndex (at args.PrevLogIndex = dummyIndex with a mismatched term it
equals dummyIndex, which the original claim excluded). -/
def ConflictRejectConclusion (st : Raft) (args : AppendEntriesArgs) : Prop :=
    ∃ st' reply, HandleAppendEntries st args = some (st', reply, false) ∧
      reply.Success = false ∧ reply.Term = st'.currentTerm ∧
      st'.raftLog = st.raftLog ∧
      (args.PrevLogIndex > st.raftLog.lastIndex →
        reply.ConflictIndex = st.raftLog.lastIndex + 1) ∧
      (¬ args.PrevLogIndex > st.raftLog.lastIndex →
        ∃ abandond, st.raftLog.getEntry args.PrevLogIndex = some abandond ∧
          ConflictSpec st.raftLog abandond.term args.PrevLogIndex
            reply.ConflictIndex) ∧
      st.raftLog.dummyIndex ≤ reply.ConflictIndex ∧
      (st.raftLog.dummyIndex < args.PrevLogIndex →
        st.raftLog.dummyIndex < reply.ConflictIndex)

theorem claim_C5_amended (st : Raft) (args : AppendEntriesArgs)
    (hwf : st.raftLog.WF)
    (ht : st.currentTerm ≤ args.Term)
    (hge : st.raftLog.dummyIndex ≤ args.PrevLogIndex)
    (hm : st.raftLog.matchLog args.PrevLogTerm args.PrevLogIndex = some false) :
    ConflictRejectConclusion st args := by
  unfold ConflictRejectConclusion
  have hlast := hwf.lastIndex_spec
  have hpos := hwf.length_pos
  unfold HandleAppendEntries ChangeState
  rw [if_neg (by omega)]
  by_cases hgt : args.Term > st.currentTerm <;>
    [simp only [if_pos hgt]; simp only [if_neg hgt]] <;>
  · rw [if_neg (show ¬ args.PrevLogIndex < st.raftLog.dummyIndex by omega), hm]
    by_cases hbig : args.PrevLogIndex > st.raftLog.lastIndex
    · simp only [if_pos hbig]
      refine ⟨_, _, rfl, rfl, rfl, rfl, fun _ => rfl,
        fun hc => (hc hbig).elim, ?_, ?_⟩
      · show st.raftLog.dummyIndex ≤ st.raftLog.lastIndex + 1
        omega
      · intro _
        show st.raftLog.dummyIndex < st.raftLog.lastIndex + 1
        omega
    · simp only [if_neg hbig]
      obtain ⟨hk, he, hidx⟩ := st.raftLog.getEntry_eq_some hwf hge (by omega)
      obtain ⟨r, hcw, hcs⟩ := conflictWalk_spec st.raftLog hwf
        (st.raftLog.logs.get ⟨(args.PrevLogIndex -
          st.raftLog.dummyIndex).toNat, hk⟩).term args.PrevLogIndex hge (by omega)
      simp only [he, hcw]
      have hrange : st.raftLog.dummyIndex ≤ r ∧
          (st.raftLog.dummyIndex < args.PrevLogIndex →
            st.raftLog.dummyIndex < r) := by
        unfold ConflictSpec at hcs
        by_cases hsm : args.PrevLogIndex ≤ st.raftLog.dummyIndex + 1
        · rw [if_pos hsm] at hcs
          omega
        · rw [if_neg hsm] at hcs
          obtain ⟨hb1, hb2, _, _⟩ := hcs
          omega
      refine ⟨_, _, rfl, rfl, rfl, rfl, fun hc => (hbig hc).elim,
        fun _ => ⟨_, rfl, ?_⟩, ?_, ?_⟩
      · exact hcs
      · exact hrange.1
      · exact hrange.2

/-- Concrete follower state for claim C5 (fresh log, dummyIndex = 0). -/
def stC5 : Raft :=
  { peers := 3, me := 2, state := NodeState.StateFollower, currentTerm := 1,
    votedFor := 0, raftLog := ⟨[⟨0,0,0⟩, ⟨1,1,11⟩]⟩, commitIndex := 0,
    lastApplied := 0, nextIndex := [0,0,0], matchIndex := [0,0,0],
    persisted := (1, 0, [⟨0,0,0⟩, ⟨1,1,11⟩]) }

/-- A request probing exactly the dummy entry with a mismatched term. -/
def argsC5 : AppendEntriesArgs :=
  { Term := 1, LeaderId := 0, PrevLogIndex := 0, PrevLogTerm := 7,
    Entries := [], LeaderCommit := 0 }

/-- Counterexample to claim C5 as stated: at stC5 and argsC5 the request is
rejected for log mismatch (args.Term >= currentTerm, args.PrevLogIndex =
dummyIndex, matchLog false), yet the returned conflictIndex equals
dummyIndex, not strictly greater. -/
theorem claim_C5_counterexample :
    (stC5.currentTerm ≤ argsC5.Term ∧
      stC5.raftLog.dummyIndex ≤ argsC5.PrevLogIndex ∧
      stC5.raftLog.matchLog argsC5.PrevLogTerm argsC5.PrevLogIndex =
        some false) ∧
    HandleAppendEntries stC5 argsC5 = some (stC5, ⟨1, false, 0⟩, false) ∧
    (⟨1, false, 0⟩ : AppendEntriesReply).ConflictIndex =
      stC5.raftLog.dummyIndex ∧
    ¬ stC5.raftLog.dummyIndex <
        (⟨1, false, 0⟩ : AppendEntriesReply).ConflictIndex := by
  refine ⟨⟨by decide, by decide, by decide⟩, by decide, by decide, by decide⟩

/-- Witness for the amended claim C5 at the concrete input. -/
theorem claim_C5_witness :
    (stC5.raftLog.WF ∧ stC5.currentTerm ≤ argsC5.Term ∧
      stC5.raftLog.dummyIndex ≤ argsC5.PrevLogIndex ∧
      stC5.raftLog.matchLog argsC5.PrevLogTerm argsC5.PrevLogIndex =
        some false) ∧
    ConflictRejectConclusion stC5 argsC5 :=
  ⟨⟨by decide, by decide, by decide, by decide⟩,
   claim_C5_amended stC5 argsC5 (by decide) (by decide) (by decide) (by decide)⟩

/-- The per-entry conflict condition of the receiver's scan, for the k-th
entry of a request whose entries are contiguous from base: its index base+k
is beyond lastIndex, or the term stored at base+k differs from the entry's
term. -/
def conflictAt (l : raftLog) (E : List Entry) (base : Int) (k : Nat) : Prop :=
  base + k > l.lastIndex ∨
  (l.getEntry (base + k)).map Entry.term ≠ some ((E.getD k default).term)

instance (l : raftLog) (E : List Entry) (base : Int) (k : Nat) :
    Decidable (conflictAt l E base k) := by
  unfold conflictAt; infer_instance

theorem conflictAt_shift (l : raftLog) (e : Entry) (rest : List Entry)
    (base : Int) (k : Nat) :
    conflictAt l rest (base + 1) k ↔ conflictAt l (e :: rest) base (k + 1) := by
  unfold conflictAt
  have h1 : base + 1 + (k : Int) = base + ((k + 1 : Nat) : Int) := by
    push_cast; ring
  rw [h1]
  rfl

theorem entriesScan_spec (l : raftLog) (hwf : l.WF) :
    ∀ (E : List Entry) (base : Int), l.dummyIndex < base →
    base ≤ l.lastIndex + 1 →
    (∀ k (hk : k < E.length), (E.get ⟨k, hk⟩).index = base + k) →
    ((∀ k, k < E.length → ¬ conflictAt l E base k) ∧ entriesScan l E = some l)
    ∨ (∃ k, k < E.length ∧ conflictAt l E base k ∧
        (∀ j, j < k → ¬ conflictAt l E base j) ∧
        entriesScan l E =
          some ⟨l.logs.take ((base + k) - l.dummyIndex).toNat ++ E.drop k⟩) := by
  have hlast := hwf.lastIndex_spec
  intro E
  induction E with
  | nil =>
    intro base _ _ _
    left
    refine ⟨fun k hk => ?_, rfl⟩
    simp at hk
  | cons e rest ih =>
    intro base hb1 hb2 hcont
    have he0 : e.index = base := by
      have := hcont 0 (by simp)
      simpa using this
    have hci : l.convertIndex e.index = some ((base - l.dummyIndex).toNat) := by
      rw [he0, raftLog.convertIndex_eq (by omega)]
    by_cases hbeyond : base > l.lastIndex
    · -- first entry already beyond the last index: truncate (a no-op take of
      -- the full slice) and append everything
      right
      refine ⟨0, by simp, Or.inl (by push_cast; omega), fun j hj => absurd hj (by omega), ?_⟩
      have hc2 : (base - l.dummyIndex).toNat = l.logs.length := by omega
      have htr : l.trunc e.index = some ⟨l.logs.take ((base - l.dummyIndex).toNat)⟩ := by
        unfold raftLog.trunc raftLog.sliceTo
        rw [hci]
        simp only [Option.bind_eq_bind, Option.some_bind]
        rw [if_pos (by omega)]
        rfl
      show entriesScan l (e :: rest) = _
      unfold entriesScan
      simp only [hci]
      rw [if_pos (show (base - l.dummyIndex).toNat ≥ l.len from by
        unfold raftLog.len; omega)]
      simp only [htr, raftLog.append, Option.some.injEq, raftLog.mk.injEq]
      simp only [Nat.cast_zero, add_zero, List.drop_zero]
    · -- the first entry's slot exists: compare terms
      obtain ⟨hk, hget, hidx⟩ := l.getEntry_eq_some hwf
        (show l.dummyIndex ≤ base from by omega) (by omega)
      have hcilen : (base - l.dummyIndex).toNat < l.len := by
        unfold raftLog.len; omega
      by_cases hterm : (l.logs.get ⟨(base - l.dummyIndex).toNat, hk⟩).term = e.term
      · -- no conflict at the head entry: the scan moves on
        have hnc0 : ¬ conflictAt l (e :: rest) base 0 := by
          unfold conflictAt
          push_neg
          refine ⟨by push_cast; omega, ?_⟩
          rw [show base + ((0 : Nat) : Int) = base from by push_cast; ring, hget]
          simp only [Option.map_some', Option.some.injEq]
          rw [hterm]
          rfl
        have hgete : l.getEntry e.index =
            some (l.logs.get ⟨(base - l.dummyIndex).toNat, hk⟩) := by
          rw [he0]; exact hget
        have hscan : entriesScan l (e :: rest) = entriesScan l rest := by
          unfold entriesScan
          simp only [hci]
          rw [if_neg (show ¬ (base - l.dummyIndex).toNat ≥ l.len from by
            unfold raftLog.len at hcilen ⊢; omega)]
          simp only [hgete]
          rw [if_neg (not_not_intro hterm)]
          rw [← entriesScan.eq_def]
        have hcont' : ∀ k (hk2 : k < rest.length),
            (rest.get ⟨k, hk2⟩).index = base + 1 + k := by
          intro k hk2
          have := hcont (k + 1) (by simp; omega)
          rw [show (e :: rest).get ⟨k + 1, by simp; omega⟩ =
            rest.get ⟨k, hk2⟩ from rfl] at this
          rw [this]
          push_cast; ring
        rcases ih (base + 1) (by omega) (by omega) hcont' with
          ⟨hall, hsc⟩ | ⟨k, hk1, hkc, hkmin, hsc⟩
        · left
          refine ⟨?_, by rw [hscan]; exact hsc⟩
          intro k hk2
          cases k with
          | zero => exact hnc0
          | succ k =>
            rw [← conflictAt_shift l e rest base k]
            exact hall k (by simpa using hk2)
        · right
          refine ⟨k + 1, by simpa using hk1,
            (conflictAt_shift l e rest base k).mp hkc, ?_, ?_⟩
          · intro j hj
            cases j with
            | zero => exact hnc0
            | succ j =>
              rw [← conflictAt_shift l e rest base j]
              exact hkmin j (by omega)
          · rw [hscan, hsc]
            have : base + 1 + (k : Int) = base + ((k + 1 : Nat) : Int) := by
              push_cast; ring
            rw [this]
            rfl
      · -- term mismatch at the head entry: truncate and append from here
        right
        have hc0 : conflictAt l (e :: rest) base 0 := by
          unfold conflictAt
          right
          rw [show base + ((0 : Nat) : Int) = base from by push_cast; ring, hget]
          simp only [Option.map_some', ne_eq, Option.some.injEq]
          intro hcon
          exact hterm (by rw [hcon]; rfl)
        refine ⟨0, by simp, hc0, fun j hj => absurd hj (by omega), ?_⟩
        have htr : l.trunc e.index =
            some ⟨l.logs.take ((base - l.dummyIndex).toNat)⟩ := by
          unfold raftLog.trunc raftLog.sliceTo
          rw [hci]
          simp only [Option.bind_eq_bind, Option.some_bind]
          rw [if_pos (by unfold raftLog.len at hcilen; omega)]
          rfl
        have hgete : l.getEntry e.index =
            some (l.logs.get ⟨(base - l.dummyIndex).toNat, hk⟩) := by
          rw [he0]; exact hget
        show entriesScan l (e :: rest) = _
        unfold entriesScan
        simp only [hci]
        rw [if_neg (show ¬ (base - l.dummyIndex).toNat ≥ l.len from by
          unfold raftLog.len at hcilen ⊢; omega)]
        simp only [hgete]
        rw [if_pos hterm]
        simp only [htr, raftLog.append, Option.some.injEq, raftLog.mk.injEq]
        simp only [Nat.cast_zero, add_zero, List.drop_zero]

/-- The follower of the claim's concrete conflicting-append scenario:
log [1:t1, 2:t1, 3:t2] with t1 = 1, t2 = 2, current term 3. -/
def stC2 : Raft :=
  { peers := 3, me := 0, state := NodeState.StateFollower, currentTerm := 3,
    votedFor := -1, raftLog := ⟨[⟨0,0,0⟩, ⟨1,1,11⟩, ⟨2,1,12⟩, ⟨3,2,13⟩]⟩,
    commitIndex := 0, lastApplied := 0,
    nextIndex := [0,0,0], matchIndex := [0,0,0], persisted := (0, -1, []) }

/-- The claim's concrete request: prevLogIndex=2, prevLogTerm=t1,
entries=[3:t3, 4:t3] with t3 = 3. -/
def argsC2 : AppendEntriesArgs :=
  { Term := 3, LeaderId := 1, PrevLogIndex := 2, PrevLogTerm := 1,
    Entries := [⟨3,3,23⟩, ⟨4,3,24⟩], LeaderCommit := 0 }

/-- The expected post-state of the concrete scenario:
log [1:t1, 2:t1, 3:t3, 4:t3], persisted. -/
def stC2out : Raft :=
  { stC2 with
    raftLog := ⟨[⟨0,0,0⟩, ⟨1,1,11⟩, ⟨2,1,12⟩, ⟨3,3,23⟩, ⟨4,3,24⟩]⟩
    persisted := (3, -1, [⟨0,0,0⟩, ⟨1,1,11⟩, ⟨2,1,12⟩, ⟨3,3,23⟩, ⟨4,3,24⟩]) }

/-- The conclusion of claim C2 for a matched AppendEntries: the handler
succeeds with the follower's current term; the log is unchanged when every
entry is already present with a matching term, and at the first conflicting
entry (index beyond lastIndex or differing term) the log is truncated at that
entry's index and the remaining entries are appended. -/
def AppendScanConclusion (st : Raft) (args : AppendEntriesArgs) : Prop :=
  ∃ st' reply sig, HandleAppendEntries st args = some (st', reply, sig) ∧
    reply.Success = true ∧ reply.Term = st'.currentTerm ∧
    ((∀ k, k < args.Entries.length →
        ¬ conflictAt st.raftLog args.Entries (args.PrevLogIndex + 1) k) →
      st'.raftLog = st.raftLog) ∧
    (∀ k, k < args.Entries.length →
      conflictAt st.raftLog args.Entries (args.PrevLogIndex + 1) k →
      (∀ j, j < k → ¬ conflictAt st.raftLog args.Entries (args.PrevLogIndex + 1) j) →
      st'.raftLog.logs =
        st.raftLog.logs.take ((args.PrevLogIndex + 1 + k) -
          st.raftLog.dummyIndex).toNat ++ args.Entries.drop k)

/-- Claim C2: follower conflict handling in HandleAppendEntries, plus the
claim's concrete scenario ending in log [1:t1, 2:t1, 3:t3, 4:t3] and a
success reply at term currentTerm = 3. -/
theorem claim_C2 (st : Raft) (args : AppendEntriesArgs)
    (hwf : st.raftLog.WF)
    (ht : st.currentTerm ≤ args.Term)
    (hge : st.raftLog.dummyIndex ≤ args.PrevLogIndex)
    (hm : st.raftLog.matchLog args.PrevLogTerm args.PrevLogIndex = some true)
    (hcont : ∀ k : Fin args.Entries.length,
      (args.Entries.get k).index = args.PrevLogIndex + 1 + (k : Nat)) :
    AppendScanConclusion st args ∧
    HandleAppendEntries stC2 argsC2 = some (stC2out, ⟨3, true, 0⟩, false) := by
  refine ⟨?_, by decide⟩
  have hple : args.PrevLogIndex ≤ st.raftLog.lastIndex := by
    by_contra hgt
    unfold raftLog.matchLog at hm
    rw [if_pos (by omega)] at hm
    exact Bool.noConfusion (Option.some.inj hm)
  rcases entriesScan_spec st.raftLog hwf args.Entries (args.PrevLogIndex + 1)
      (by omega) (by omega) (fun k hk => hcont ⟨k, hk⟩) with
    ⟨hall, hsc⟩ | ⟨k, hk1, hkc, hkmin, hsc⟩
  · unfold AppendScanConclusion HandleAppendEntries ChangeState
    rw [if_neg (by omega)]
    by_cases hgt : args.Term > st.currentTerm <;>
      [simp only [if_pos hgt]; simp only [if_neg hgt]] <;>
    · rw [if_neg (by omega)]
      simp only [hm, hsc]
      by_cases hlc : args.LeaderCommit > st.commitIndex <;>
        [simp only [if_pos hlc]; simp only [if_neg hlc]] <;>
      · exact ⟨_, _, _, rfl, rfl, rfl, fun _ => rfl,
          fun k hk2 hc _ => absurd hc (hall k hk2)⟩
  · unfold AppendScanConclusion HandleAppendEntries ChangeState
    rw [if_neg (by omega)]
    by_cases hgt : args.Term > st.currentTerm <;>
      [simp only [if_pos hgt]; simp only [if_neg hgt]] <;>
    · rw [if_neg (by omega)]
      simp only [hm, hsc]
      by_cases hlc : args.LeaderCommit > st.commitIndex <;>
        [simp only [if_pos hlc]; simp only [if_neg hlc]] <;>
      · refine ⟨_, _, _, rfl, rfl, rfl, fun hno => absurd hkc (hno k hk1), ?_⟩
        intro k' hk2 hc hmin
        have h1 : ¬ k < k' := fun h => (hmin k h) hkc
        have h2 : ¬ k' < k := fun h => (hkmin k' h) hc
        have hkk : k' = k := by omega
        subst hkk
        rfl

/-- Witness for claim C2 at the claim's own concrete scenario. -/
theorem claim_C2_witness :
    (stC2.raftLog.WF ∧ stC2.currentTerm ≤ argsC2.Term ∧
      stC2.raftLog.dummyIndex ≤ argsC2.PrevLogIndex ∧
      stC2.raftLog.matchLog argsC2.PrevLogTerm argsC2.PrevLogIndex = some true ∧
      (∀ k : Fin argsC2.Entries.length,
        (argsC2.Entries.get k).index = argsC2.PrevLogIndex + 1 + (k : Nat))) ∧
    (AppendScanConclusion stC2 argsC2 ∧
      HandleAppendEntries stC2 argsC2 = some (stC2out, ⟨3, true, 0⟩, false)) :=
  ⟨⟨by decide, by decide, by decide, by decide, by decide⟩,
   claim_C2 stC2 argsC2 (by decide) (by decide) (by decide) (by decide) (by decide)⟩

/-- The dedupe table holds an id at least id for client c. -/
def latestGE (kv : KVServer) (c id : Int) : Prop :=
  ∃ v, kv.latestTime c = some v ∧ id ≤ v

theorem applyOpToState_skip (kv1 : KVServer) (op : Op)
    (h : ¬ (op.OpTask ≠ Gett ∧
      ¬ dupCommand kv1 op.CommandId op.ClientId = true)) :
    applyOpToState kv1 op = kv1 := by
  unfold applyOpToState
  rw [if_neg h]

theorem applyCommandMsg_unchanged (kv : KVServer) (i : Int) (op : Op)
    (h : ¬ (i > kv.lastApplied ∧ (op.OpTask ≠ Gett ∧
      ¬ dupCommand kv op.CommandId op.ClientId = true))) :
    (applyCommandMsg kv i op).storage = kv.storage ∧
    (applyCommandMsg kv i op).latestTime = kv.latestTime := by
  unfold applyCommandMsg
  by_cases h1 : i > kv.lastApplied
  · rw [if_pos h1,
      applyOpToState_skip { kv with lastApplied := i } op (fun hx => h ⟨h1, hx⟩)]
    exact ⟨rfl, rfl⟩
  · rw [if_neg h1]
    exact ⟨rfl, rfl⟩

theorem applyOpToState_latestGE (kv1 : KVServer) (op : Op)
    (c id : Int) (h : latestGE kv1 c id) :
    latestGE (applyOpToState kv1 op) c id := by
  obtain ⟨v, hv, hle⟩ := h
  unfold latestGE applyOpToState
  by_cases h2 : op.OpTask ≠ Gett ∧
      ¬ dupCommand kv1 op.CommandId op.ClientId = true
  · rw [if_pos h2]
    by_cases hc : c = op.ClientId
    · refine ⟨op.CommandId, ?_, ?_⟩
      · show (if c = op.ClientId then some op.CommandId
          else kv1.latestTime c) = some op.CommandId
        rw [if_pos hc]
      · obtain ⟨_, hdup⟩ := h2
        unfold dupCommand at hdup
        rw [← hc, hv] at hdup
        simp at hdup
        omega
    · refine ⟨v, ?_, hle⟩
      show (if c = op.ClientId then some op.CommandId
        else kv1.latestTime c) = some v
      rw [if_neg hc]
      exact hv
  · rw [if_neg h2]
    exact ⟨v, hv, hle⟩

theorem applyCommandMsg_latestGE (kv : KVServer) (i : Int) (op : Op)
    (c id : Int) (h : latestGE kv c id) :
    latestGE (applyCommandMsg kv i op) c id := by
  unfold applyCommandMsg
  by_cases h1 : i > kv.lastApplied
  · rw [if_pos h1]
    exact applyOpToState_latestGE { kv with lastApplied := i } op c id h
  · rw [if_neg h1]
    exact h

theorem applyCommandMsg_applied (kv : KVServer) (i : Int) (op : Op)
    (h1 : i > kv.lastApplied) (h2 : op.OpTask ≠ Gett ∧
      ¬ dupCommand kv op.CommandId op.ClientId = true) :
    latestGE (applyCommandMsg kv i op) op.ClientId op.CommandId := by
  unfold applyCommandMsg
  rw [if_pos h1]
  unfold latestGE applyOpToState
  rw [if_pos (show op.OpTask ≠ Gett ∧ ¬ dupCommand { kv with lastApplied := i }
    op.CommandId op.ClientId = true from h2)]
  refine ⟨op.CommandId, ?_, le_refl _⟩
  show (if op.ClientId = op.ClientId then some op.CommandId
    else ({ kv with lastApplied := i } : KVServer).latestTime op.ClientId) =
    some op.CommandId
  rw [if_pos rfl]

theorem applyCommandList_latestGE (msgs : List (Int × Op)) :
    ∀ kv c id, latestGE kv c id → latestGE (applyCommandList kv msgs) c id := by
  induction msgs with
  | nil => intro kv c id h; exact h
  | cons m rest ih =>
    intro kv c id h
    exact ih _ c id (applyCommandMsg_latestGE kv m.1 m.2 c id h)

theorem applyCommandMsg_dup_skip (kv : KVServer) (i : Int) (op : Op)
    (h : latestGE kv op.ClientId op.CommandId) :
    (applyCommandMsg kv i op).storage = kv.storage ∧
    (applyCommandMsg kv i op).latestTime = kv.latestTime := by
  apply applyCommandMsg_unchanged
  rintro ⟨h1, _, hdup⟩
  obtain ⟨v, hv, hle⟩ := h
  apply hdup
  unfold dupCommand
  simp only [hv]
  exact decide_eq_true hle

/-- Claim C8: a Get leaves storage and the dedupe table unchanged; a Put or
Append is applied only when commandIndex > lastApplied and the command id is
new for the client; and once a command (clientId, commandId) has been
applied, any later delivery of the same (clientId, commandId) leaves storage
and the dedupe table unchanged, whatever commands are processed in between
(operations with the same (clientId, commandId) affect the store at most
once). -/
theorem claim_C8 :
    (∀ kv i op, op.OpTask = Gett →
      (applyCommandMsg kv i op).storage = kv.storage ∧
      (applyCommandMsg kv i op).latestTime = kv.latestTime)
    ∧ (∀ kv i op, ¬ (i > kv.lastApplied ∧ (op.OpTask ≠ Gett ∧
        ¬ dupCommand kv op.CommandId op.ClientId = true)) →
      (applyCommandMsg kv i op).storage = kv.storage ∧
      (applyCommandMsg kv i op).latestTime = kv.latestTime)
    ∧ (∀ kv i op msgs i2 op2, i > kv.lastApplied →
      op.OpTask ≠ Gett → ¬ dupCommand kv op.CommandId op.ClientId = true →
      op2.ClientId = op.ClientId → op2.CommandId = op.CommandId →
      (applyCommandMsg (applyCommandList (applyCommandMsg kv i op) msgs)
          i2 op2).storage =
        (applyCommandList (applyCommandMsg kv i op) msgs).storage ∧
      (applyCommandMsg (applyCommandList (applyCommandMsg kv i op) msgs)
          i2 op2).latestTime =
        (applyCommandList (applyCommandMsg kv i op) msgs).latestTime) := by
  refine ⟨?_, ?_, ?_⟩
  · intro kv i op hget
    apply applyCommandMsg_unchanged
    rintro ⟨_, hne, _⟩
    exact hne hget
  · intro kv i op h
    exact applyCommandMsg_unchanged kv i op h
  · intro kv i op msgs i2 op2 h1 hne hdup hc hid
    have hge1 := applyCommandMsg_applied kv i op h1 ⟨hne, hdup⟩
    have hge2 := applyCommandList_latestGE msgs _ _ _ hge1
    apply applyCommandMsg_dup_skip
    rw [hc, hid]
    exact hge2

/-- Concrete KV server and operations for the C8 witness. -/
def kvC8 : KVServer := ⟨fun _ => "", fun _ => none, 0⟩

/-- A Get operation for the C8 witness. -/
def opC8get : Op := ⟨Gett, "k", "", 1, 5, 0⟩

/-- A Put operation for the C8 witness. -/
def opC8put : Op := ⟨Putt, "k", "v1", 1, 5, 0⟩

/-- An interleaved Append by another client for the C8 witness. -/
def opC8mid : Op := ⟨Appendd, "k", "x", 2, 1, 0⟩

/-- Witness for claim C8: a Get changes nothing, an out-of-order index
changes nothing, and redelivering (clientId 1, commandId 5) after an
interleaved command changes nothing. -/
theorem claim_C8_witness :
    ((applyCommandMsg kvC8 1 opC8get).storage = kvC8.storage ∧
      (applyCommandMsg kvC8 1 opC8get).latestTime = kvC8.latestTime) ∧
    ((applyCommandMsg kvC8 0 opC8put).storage = kvC8.storage ∧
      (applyCommandMsg kvC8 0 opC8put).latestTime = kvC8.latestTime) ∧
    ((applyCommandMsg (applyCommandList (applyCommandMsg kvC8 1 opC8put)
        [(2, opC8mid)]) 3 opC8put).storage =
      (applyCommandList (applyCommandMsg kvC8 1 opC8put) [(2, opC8mid)]).storage ∧
      (applyCommandMsg (applyCommandList (applyCommandMsg kvC8 1 opC8put)
          [(2, opC8mid)]) 3 opC8put).latestTime =
        (applyCommandList (applyCommandMsg kvC8 1 opC8put)
          [(2, opC8mid)]).latestTime) :=
  ⟨claim_C8.1 kvC8 1 opC8get (by decide),
   claim_C8.2.1 kvC8 0 opC8put (by
     rintro ⟨h, _⟩
     revert h
     decide),
   claim_C8.2.2 kvC8 1 opC8put [(2, opC8mid)] 3 opC8put (by decide) (by decide)
     (by decide) rfl rfl⟩
